import Mathlib

/-!
Shallow embedding of the `ftldat` container engine (`src/main.py`, class
`FTLPack`) and proofs about it.

Bytes are modelled as `Nat`s, a file as a list of bytes together with the
current position of the file handle (Python file objects are stateful:
`seek`, `read`, `write`, `truncate`).  All integers in the format are
little-endian unsigned 32-bit words (`struct.pack('<L', v)`).
-/

namespace FTLDat

/-- `struct.pack('<L', v)`: four little-endian bytes. -/
def pack32 (v : Nat) : List Nat :=
  [v % 256, v / 256 % 256, v / 2 ^ 16 % 256, v / 2 ^ 24 % 256]

/-- `struct.unpack('<L', b)[0]` for a 4-byte string `b`. -/
def unpack32 (b : List Nat) : Nat :=
  b.getD 0 0 + 256 * b.getD 1 0 + 2 ^ 16 * b.getD 2 0 + 2 ^ 24 * b.getD 3 0

/-- Read at most `k` bytes of `c` starting at byte `pos` (short near EOF,
like POSIX `read`). -/
def readAt (c : List Nat) (pos k : Nat) : List Nat :=
  (c.drop pos).take k

/-- Overwrite `c` with `buf` at byte `pos`, zero-filling any gap between the
old end of file and `pos` (POSIX write-past-EOF semantics). -/
def writeAt (c : List Nat) (pos : Nat) (buf : List Nat) : List Nat :=
  (c.take pos ++ List.replicate (pos - c.length) 0) ++ buf ++ c.drop (pos + buf.length)

/-- A Python file object: contents plus handle position. -/
structure FileH where
  data : List Nat
  pos : Nat
deriving DecidableEq, Repr

/-- `f.seek(k, 0)`. -/
def fseek (h : FileH) (k : Nat) : FileH := ⟨h.data, k⟩

/-- `f.seek(0, 2)`. -/
def fseekEnd (h : FileH) : FileH := ⟨h.data, h.data.length⟩

/-- `f.write(buf)`. -/
def fwrite (h : FileH) (buf : List Nat) : FileH :=
  ⟨writeAt h.data h.pos buf, h.pos + buf.length⟩

/-- `f.read(k)`: returns the bytes read (possibly fewer than `k` near EOF)
and the advanced handle. -/
def fread (h : FileH) (k : Nat) : List Nat × FileH :=
  (readAt h.data h.pos k, ⟨h.data, h.pos + (readAt h.data h.pos k).length⟩)

/-- `f.truncate(n)`: sets the file size to exactly `n`, zero-extending if
`n` is larger than the current size. -/
def ftruncate (h : FileH) (n : Nat) : FileH :=
  ⟨h.data.take n ++ List.replicate (n - h.data.length) 0, h.pos⟩

/-! ### Basic facts about the byte model -/

theorem writeAt_head_length (c : List Nat) (pos : Nat) :
    (c.take pos ++ List.replicate (pos - c.length) 0).length = pos := by
  simp only [List.length_append, List.length_take, List.length_replicate]
  omega

theorem writeAt_length (c : List Nat) (pos : Nat) (buf : List Nat) :
    (writeAt c pos buf).length = max c.length (pos + buf.length) := by
  simp only [writeAt, List.length_append, List.length_take, List.length_replicate,
    List.length_drop]
  omega

theorem readAt_length (c : List Nat) (pos k : Nat) :
    (readAt c pos k).length = min k (c.length - pos) := by
  simp [readAt]

theorem readAt_length_of_le (c : List Nat) (pos k : Nat) (h : pos + k ≤ c.length) :
    (readAt c pos k).length = k := by
  rw [readAt_length]; omega

/-- Reading back exactly the bytes just written. -/
theorem readAt_writeAt_self (c : List Nat) (pos : Nat) (buf : List Nat) :
    readAt (writeAt c pos buf) pos buf.length = buf := by
  unfold readAt writeAt
  generalize hX : c.take pos ++ List.replicate (pos - c.length) 0 = X
  have hXlen : X.length = pos := by rw [← hX]; exact writeAt_head_length c pos
  rw [← hXlen, List.append_assoc, List.drop_left, List.take_left]

/-- A write at position `pos` does not disturb bytes strictly below `pos`
(provided those bytes existed before the write). -/
theorem readAt_writeAt_of_le (c : List Nat) (pos : Nat) (buf : List Nat)
    (a k : Nat) (hak : a + k ≤ pos) (hc : a + k ≤ c.length) :
    readAt (writeAt c pos buf) a k = readAt c a k := by
  unfold readAt writeAt
  generalize hX : c.take pos ++ List.replicate (pos - c.length) 0 = X
  have hXlen : X.length = pos := by rw [← hX]; exact writeAt_head_length c pos
  rw [List.append_assoc, List.drop_append_of_le_length (by omega)]
  rw [List.take_append_of_le_length (by simp only [List.length_drop]; omega)]
  rw [← hX, List.drop_append_of_le_length (by simp only [List.length_take]; omega)]
  rw [List.take_append_of_le_length
    (by simp only [List.length_drop, List.length_take]; omega)]
  rw [List.drop_take, List.take_take]
  congr 1
  omega

/-- Splitting a read in two. -/
theorem readAt_add (c : List Nat) (pos m n : Nat) :
    readAt c pos (m + n) = readAt c pos m ++ readAt c (pos + m) n := by
  unfold readAt
  rw [List.take_add, List.drop_drop]

theorem ftruncate_length (h : FileH) (n : Nat) :
    (ftruncate h n).data.length = n := by
  simp only [ftruncate, List.length_append, List.length_take, List.length_replicate]
  omega

theorem ftruncate_eq_self (h : FileH) (n : Nat) (hn : h.data.length = n) :
    ftruncate h n = h := by
  cases h with
  | mk d p =>
    simp only [ftruncate]
    simp only at hn
    subst hn
    simp

/-! ### Container state (`class FTLPack`) -/

/-- The in-memory metadata of one occupied slot: the namedtuple
`ftldat_entry(filename, size, offset)`; `offset` is the payload offset
(header offset + 8 + name length). -/
structure ftldat_entry where
  filename : List Nat
  size : Nat
  offset : Nat
deriving DecidableEq, Repr

/-- The in-memory state of `class FTLPack`:
`self.index`, `self.index_free`, `self.metadata`, `self.filenames`,
`self.eof` and the open file `self.f`.  `self.filenames` (a Python dict)
is modelled as an association list with first-match lookup. -/
structure FTLPack where
  index : List Nat
  index_free : List Nat
  metadata : List (Option ftldat_entry)
  filenames : List (List Nat × Nat)
  eof : Nat
  f : FileH
deriving DecidableEq, Repr

/-- Dict lookup `self.filenames[filename]` / membership test. -/
def lookupName (fns : List (List Nat × Nat)) (name : List Nat) : Option Nat :=
  match fns with
  | [] => none
  | (k, v) :: rest => if k = name then some v else lookupName rest name

/-- `self.f.write(struct.pack('<L', 0))` repeated `count` times. -/
def writeZeroWords (h : FileH) (count : Nat) : FileH :=
  match count with
  | 0 => h
  | c + 1 => writeZeroWords (fwrite h (pack32 0)) c

/-- `FTLPack(filename, create=True, index_size=n)`, i.e. `_create_index`
applied to a fresh (truncated, `'wb+'`) file. -/
def FTLPack.create_index (index_size : Nat) : FTLPack :=
  let h := fwrite (fseek ⟨[], 0⟩ 0) (pack32 index_size)
  { index := List.replicate index_size 0
    index_free := (List.range index_size).reverse
    metadata := List.replicate index_size none
    filenames := []
    eof := index_size * 4 + 4
    f := writeZeroWords h index_size }

/-- Read `count` consecutive 32-bit words (`struct.unpack('<L', f.read(4))`,
which raises if fewer than 4 bytes come back). -/
def readWords (h : FileH) (count : Nat) : Option (List Nat × FileH) :=
  match count with
  | 0 => some ([], h)
  | c + 1 =>
    let r := fread h 4
    if r.1.length = 4 then
      match readWords r.2 c with
      | some (ws, h2) => some (unpack32 r.1 :: ws, h2)
      | none => none
    else none

/-- The metadata scan of `_read_index`: walk `enumerate(self.index)`, pushing
free slots and reading each occupied slot's entry header.  Fails (like the
Python exceptions) on a short header read or on a duplicate filename. -/
def scanEntries (n : Nat) (rem : List Nat) (h : FileH) (free : List Nat)
    (md : List (Option ftldat_entry)) (fns : List (List Nat × Nat)) :
    Option (List Nat × List (Option ftldat_entry) × List (List Nat × Nat) × FileH) :=
  match rem with
  | [] => some (free, md, fns, h)
  | offset :: rest =>
    if offset = 0 then scanEntries (n + 1) rest h (free ++ [n]) md fns
    else
      let r8 := fread (fseek h offset) 8
      if r8.1.length = 8 then
        let size := unpack32 (r8.1.take 4)
        let rname := fread r8.2 (unpack32 (r8.1.drop 4))
        if lookupName fns rname.1 = none then
          scanEntries (n + 1) rest rname.2 free
            (md.set n (some ⟨rname.1, size, offset + 8 + rname.1.length⟩))
            ((rname.1, n) :: fns)
        else none
      else none

/-- `_read_index` on an existing file: `FTLPack(f)` with `create=False`. -/
def FTLPack.read_index (h0 : FileH) : Option FTLPack :=
  let r := fread (fseek h0 0) 4
  if r.1.length = 4 then
    let index_size := unpack32 r.1
    match readWords r.2 index_size with
    | some (idx, h2) =>
      match scanEntries 0 idx h2 [] (List.replicate index_size none) [] with
      | some (free, md, fns, h3) =>
        some { index := idx, index_free := free, metadata := md, filenames := fns,
               eof := h3.data.length, f := fseekEnd h3 }
      | none => none
    | none => none
  else none

/-- The chunked copy loop shared by `_move_to_eof` and `repack`: move `todo`
bytes from `src` to `dst` in `min(4096, todo)`-byte chunks, low addresses
first, re-seeking before each read and write.  `none` models the `assert buf`
failure (respectively a stuck loop) when a read comes back empty. -/
def copyChunks (h : FileH) (src dst todo : Nat) : Option FileH :=
  if h0 : todo = 0 then some h
  else
    match fread (fseek h src) (min 4096 todo) with
    | (buf, h2) =>
      if hb : buf.length = 0 then none
      else
        copyChunks (fwrite (fseek h2 dst) buf) (src + buf.length) (dst + buf.length)
          (todo - buf.length)
termination_by todo
decreasing_by omega

/-- `_move_to_eof(n)`: relocate the `n`-th entry to the end of the file. -/
def FTLPack.move_to_eof (p : FTLPack) (n : Nat) : Option FTLPack :=
  match p.index[n]?, p.metadata[n]? with
  | some old_offset, some (some e) =>
    let new_offset := p.eof
    let size := e.size + e.filename.length + 8
    match copyChunks p.f old_offset new_offset size with
    | some h =>
      some { p with
        index := p.index.set n new_offset
        metadata := p.metadata.set n (some { e with offset := new_offset + e.filename.length + 8 })
        eof := p.eof + size
        f := fwrite (fseek h (n * 4 + 4)) (pack32 new_offset) }
    | none => none
  | _, _ => none

/-- `[n for n in xrange(len(self.index)) if self.index[n]]`. -/
def indexUsed (idx : List Nat) : List Nat :=
  (List.range idx.length).filter (fun n => idx.getD n 0 != 0)

/-- `min(index_used, key=lambda n: self.index[n])` starting from a current
best: Python's `min` keeps the first occurrence of the minimal key. -/
def minIdxGo (idx : List Nat) (best : Nat) : List Nat → Nat
  | [] => best
  | a :: r => if idx.getD a 0 < idx.getD best 0 then minIdxGo idx a r else minIdxGo idx best r

/-- The `while True` loop of `_grow_index`, with fuel: returns the state
after any relocations together with `free_room` at the moment of `break`.
Python's `/` here is floor division on possibly-negative ints. -/
def growLoop (p : FTLPack) (amount fuel : Nat) : Option (FTLPack × Nat) :=
  match fuel with
  | 0 => none
  | fuel + 1 =>
    match indexUsed p.index with
    | [] => some (p, amount)
    | a :: r =>
      let n := minIdxGo p.index a r
      let free_room : Int :=
        Int.fdiv ((p.index.getD n 0 : Int) - ((p.index.length : Int) * 4 + 4)) 4
      if (amount : Int) ≤ free_room then some (p, free_room.toNat)
      else
        match FTLPack.move_to_eof p n with
        | some q => growLoop q amount fuel
        | none => none

/-- The tail of `_grow_index` after the loop breaks: extend the in-memory
arrays and free list, rewrite the header word and zero-fill the new slot
words on disk.  Note: `self.eof` is not touched. -/
def extendIndex (p : FTLPack) (free_room : Nat) : FTLPack :=
  let oldlen := p.index.length
  let index := p.index ++ List.replicate free_room 0
  let h := fwrite (fseek p.f 0) (pack32 index.length)
  { p with
    index := index
    index_free := p.index_free ++ (List.range free_room).map (fun i => oldlen + free_room - 1 - i)
    metadata := p.metadata ++ List.replicate free_room none
    f := fwrite (fseek h (oldlen * 4 + 4)) ((List.replicate free_room (pack32 0)).flatten) }

/-- `_grow_index(amount)`. -/
def FTLPack.grow_index (p : FTLPack) (amount fuel : Nat) : Option FTLPack :=
  match growLoop p amount fuel with
  | some (q, free_room) => some (extendIndex q free_room)
  | none => none

/-! ### `add` and `extract_to` -/

/-- `self.index_free.pop()`: Python pops the last element. -/
def popLast (l : List Nat) : Option (Nat × List Nat) :=
  match l.getLast? with
  | none => none
  | some x => some (x, l.dropLast)

/-- The payload-copy loop of `add`: read up to `min(todo, 4096)` bytes at a
time from the source and write them to the container file at the current
position.  The flag is `false` when the source ran dry before `todo` bytes
were copied (Python raises `ValueError("f is too small")`), in which case
the writes made so far remain. -/
def pumpIn (h : FileH) (src : List Nat) (todo : Nat) : FileH × Bool :=
  if h0 : todo = 0 then (h, true)
  else
    match hsrc : src.take (min todo 4096) with
    | [] => (h, false)
    | b :: bs =>
      pumpIn (fwrite h (b :: bs)) (src.drop (b :: bs).length) (todo - (b :: bs).length)
termination_by todo
decreasing_by
  simp only [List.length_cons]
  omega

/-- The three metadata writes of `add`: the slot pointer, the 8-byte entry
header, and the name. -/
def addWrites (h : FileH) (n offset : Nat) (filename : List Nat) (size : Nat) : FileH :=
  let h1 := fwrite (fseek h (n * 4 + 4)) (pack32 offset)
  let h2 := fwrite (fseek h1 offset) (pack32 size ++ pack32 filename.length)
  fwrite h2 filename

/-- Result of `add`: `dupKey` models `ValueError("filename already in use")`
raised before any mutation (it carries the untouched state), `shortRead`
models `ValueError("f is too small")` raised mid-copy (it carries the
partially mutated state), and `err` models any other uncaught exception
(`IndexError`, a failed `assert`, or a non-terminating `_grow_index`). -/
inductive AddResult where
  | ok (p : FTLPack)
  | dupKey (p : FTLPack)
  | shortRead (p : FTLPack)
  | err
deriving DecidableEq, Repr

/-- `add(filename, f, size)`. -/
def FTLPack.add (p : FTLPack) (filename src : List Nat) (size fuel : Nat) : AddResult :=
  if (lookupName p.filenames filename).isSome then .dupKey p
  else
    match (if p.index_free.isEmpty then FTLPack.grow_index p 1 fuel else some p) with
    | none => .err
    | some p1 =>
      match popLast p1.index_free with
      | none => .err
      | some (n, free1) =>
        let offset := p1.eof
        if n < p1.index.length ∧ n < p1.metadata.length then
          match pumpIn (addWrites p1.f n offset filename size) src size with
          | (h2, complete) =>
            let q : FTLPack :=
              { index := p1.index.set n offset
                index_free := free1
                metadata := p1.metadata.set n
                  (some ⟨filename, size, offset + 8 + filename.length⟩)
                filenames := (filename, n) :: p1.filenames
                eof := p1.eof + size + 8 + filename.length
                f := h2 }
            if complete then .ok q else .shortRead q
        else .err

/-- Result of `extract_to`: the bytes written to the sink, `notFound` for
`KeyError`, `err` for any other uncaught exception. -/
inductive ExtractResult where
  | ok (sink : List Nat)
  | notFound
  | err
deriving DecidableEq, Repr

/-- The read loop of `extract_to`: pump `todo` bytes from the current file
position to the sink; `none` models the `assert buf` failure. -/
def pumpOut (h : FileH) (todo : Nat) (acc : List Nat) : Option (List Nat) :=
  if h0 : todo = 0 then some acc
  else
    match fread h (min todo 4096) with
    | (buf, h1) =>
      if hb : buf.length = 0 then none
      else pumpOut h1 (todo - buf.length) (acc ++ buf)
termination_by todo
decreasing_by omega

/-- `extract_to(filename, f)`. -/
def FTLPack.extract_to (p : FTLPack) (filename : List Nat) : ExtractResult :=
  match lookupName p.filenames filename with
  | none => .notFound
  | some n =>
    match p.metadata[n]? with
    | some (some e) =>
      match pumpOut (fseek p.f e.offset) e.size [] with
      | some sink => .ok sink
      | none => .err
    | _ => .err

/-! ### `repack` -/

/-- The namedtuple `repack_entry(old_n, old_offset, filename, size,
new_offset)`; `new_offset` is `0` until the layout pass assigns it (the
Python code uses `None` and never reads it before the assignment). -/
structure repack_entry where
  old_n : Nat
  old_offset : Nat
  filename : List Nat
  size : Nat
  new_offset : Nat
deriving DecidableEq, Repr

/-- The full on-disk footprint of an entry:
`entry.size + len(entry.filename) + 8`. -/
def entryTotal (e : repack_entry) : Nat :=
  e.size + e.filename.length + 8

/-- Sum of `entryTotal` over a list of entries. -/
def sumTot (es : List repack_entry) : Nat :=
  (es.map entryTotal).sum

/-- The comprehension collecting
`entry(old_n=n, old_offset=addr, ...) for n, addr in enumerate(self.index) if addr`;
`none` models the `AttributeError`/`IndexError` when an occupied slot has no
metadata. -/
def collectLive (n : Nat) (idx : List Nat) (md : List (Option ftldat_entry)) :
    Option (List repack_entry) :=
  match idx with
  | [] => some []
  | addr :: rest =>
    if addr = 0 then collectLive (n + 1) rest md
    else
      match md[n]? with
      | some (some e) =>
        match collectLive (n + 1) rest md with
        | some es => some (⟨n, addr, e.filename, e.size, 0⟩ :: es)
        | none => none
      | _ => none

/-- `entries.sort(key=lambda x: x.old_offset)` (Python's sort is stable). -/
def sortEntries (es : List repack_entry) : List repack_entry :=
  es.mergeSort (fun a b => a.old_offset ≤ b.old_offset)

/-- The overlap check of `repack`: for adjacent entries in ascending
`old_offset` order, `entries[i].old_offset + entries[i].size >
entries[i+1].old_offset`.  Note it counts only the payload `size`, not the
8-byte header and the name. -/
def hasOverlap : List repack_entry → Bool
  | a :: b :: r => decide (b.old_offset < a.old_offset + a.size) || hasOverlap (b :: r)
  | _ => false

/-- The byte-range condition the specification describes: adjacent entries
where `entries[i]`'s full range `old_offset .. old_offset+8+namelen+size`
extends past `entries[i+1].old_offset`. -/
def hasFullOverlap : List repack_entry → Bool
  | a :: b :: r =>
    decide (b.old_offset < a.old_offset + 8 + a.filename.length + a.size) ||
      hasFullOverlap (b :: r)
  | _ => false

/-- The layout pass of `repack`: assign each entry, in order, a packed
`new_offset` starting from `offset`; also returns the final cursor, which
is `new_total_size`. -/
def layout (offset : Nat) : List repack_entry → List repack_entry × Nat
  | [] => ([], offset)
  | e :: r =>
    match layout (offset + (e.size + e.filename.length + 8)) r with
    | (l, fin) => ({ e with new_offset := offset } :: l, fin)

/-- The slot-pointer write loop of `repack`, with its `skipped` flag: write
only the pointers whose value changed, seeking only after a skipped run. -/
def writeSlots (h : FileH) (idx : List Nat) (es : List repack_entry) (n : Nat)
    (skipped : Bool) (bm : Nat) : FileH × Nat :=
  match es with
  | [] => (h, bm)
  | e :: rest =>
    if e.new_offset = idx.getD n 0 then writeSlots h idx rest (n + 1) true bm
    else
      let h1 := if skipped then fseek h (4 + 4 * n) else h
      writeSlots (fwrite h1 (pack32 e.new_offset)) idx rest (n + 1) false (bm + 4)

/-- The move loop of `repack`: relocate each entry whose offset changed,
counting moved bytes; `none` models the failed `assert new_offset <
old_offset` or a stuck copy loop. -/
def moveAll (h : FileH) : List repack_entry → Nat → Option (FileH × Nat)
  | [], bm => some (h, bm)
  | e :: rest, bm =>
    if e.new_offset = e.old_offset then moveAll h rest bm
    else
      let size := e.size + 8 + e.filename.length
      if e.new_offset < e.old_offset then
        match copyChunks h e.old_offset e.new_offset size with
        | some h1 => moveAll h1 rest (bm + size)
        | none => none
      else none

/-- Rebuilding `self.filenames` from the repacked entries. -/
def buildNames (n : Nat) : List repack_entry → List (List Nat × Nat)
  | [] => []
  | e :: r => (e.filename, n) :: buildNames (n + 1) r

/-- The in-memory state `repack` rebuilds at its end from the laid-out
entries, the new total size and the final file. -/
def packedPack (es : List repack_entry) (new_total : Nat) (h : FileH) : FTLPack :=
  { index := es.map (fun e => e.new_offset)
    index_free := []
    metadata := es.map (fun e => some ⟨e.filename, e.size, e.new_offset + 8 + e.filename.length⟩)
    filenames := buildNames 0 es
    eof := new_total
    f := h }

/-- Result of `repack`: `ok` carries the new state and the namedtuple
`result(bytes_moved, old_size, new_size)`; `overlap` models
`FTLDatError("Cannot repack datfile with overlapping entries")` raised
before any write (it carries the untouched state); `err` any other
uncaught exception. -/
inductive RepackResult where
  | ok (p : FTLPack) (bytes_moved old_size new_size : Nat)
  | overlap (p : FTLPack)
  | err
deriving DecidableEq, Repr

/-- `repack` after the overlap check: write the new table, move the files,
truncate, rebuild state.  (The `assert len(entries) <= len(self.index)`
always holds since the entries came from `self.index`.) -/
def repackGo (p : FTLPack) (es : List repack_entry) (new_total : Nat) : RepackResult :=
  let start : FileH × Nat × Bool :=
    if es.length = p.index.length then (p.f, 0, true)
    else (fwrite (fseek p.f 0) (pack32 es.length), 4, false)
  match writeSlots start.1 p.index es 0 start.2.2 start.2.1 with
  | (h1, bm1) =>
    match moveAll h1 es bm1 with
    | some (h2, bm2) =>
      .ok (packedPack es new_total (ftruncate h2 new_total)) bm2 p.eof new_total
    | none => .err

/-- `repack()`. -/
def FTLPack.repack (p : FTLPack) : RepackResult :=
  match collectLive 0 p.index p.metadata with
  | none => .err
  | some es0 =>
    let es1 := sortEntries es0
    if hasOverlap es1 then .overlap p
    else repackGo p (layout (4 + es1.length * 4) es1).1 (layout (4 + es1.length * 4) es1).2

/-- The packed-layout predicate: the `new_offset`s of successive entries
tile the file contiguously starting at `o`. -/
def packedFrom : Nat → List repack_entry → Prop
  | _, [] => True
  | o, e :: r => e.new_offset = o ∧ packedFrom (o + (e.size + e.filename.length + 8)) r

/-- The gap-free offset sequence starting at `start` determined by a list of
entry footprints. -/
def offsetsFrom (start : Nat) : List Nat → List Nat
  | [] => []
  | t :: ts => start :: offsetsFrom (start + t) ts

/-- What `collectLive` produces on the state `repack` has just rebuilt:
entry `k` keeps its name and size, its `old_offset` is the previous pass's
`new_offset`, its slot is `n + k`, and `new_offset` is reset to `0`. -/
def relabel (n : Nat) : List repack_entry → List repack_entry
  | [] => []
  | e :: r => ⟨n, e.new_offset, e.filename, e.size, 0⟩ :: relabel (n + 1) r

/-- `relabel` after a second layout pass reassigning the same offsets. -/
def relabel2 (n : Nat) : List repack_entry → List repack_entry
  | [] => []
  | e :: r => ⟨n, e.new_offset, e.filename, e.size, e.new_offset⟩ :: relabel2 (n + 1) r

/-- The free-slot indices the `_read_index` scan appends, in loop order:
slot `n + k` is appended when the `k`-th remaining table word is `0`. -/
def freeOf (n : Nat) : List Nat → List Nat
  | [] => []
  | a :: r => if a = 0 then n :: freeOf (n + 1) r else freeOf (n + 1) r

/-! ### Concrete container states used as test inputs -/

/-- A one-entry container with 8 bytes of slack between the table and the
entry `"a"` (size 2 at offset 16): the result of adds and removes that left
a gap. -/
def wpack : FTLPack :=
  { index := [16]
    index_free := []
    metadata := [some ⟨[97], 2, 25⟩]
    filenames := [([97], 0)]
    eof := 27
    f := ⟨pack32 1 ++ pack32 16 ++ List.replicate 8 0 ++ pack32 2 ++ pack32 1 ++ [97] ++ [7, 8], 0⟩ }

/-- The state `repack` produces from `wpack`. -/
def wq : FTLPack :=
  { index := [8]
    index_free := []
    metadata := [some ⟨[97], 2, 17⟩]
    filenames := [([97], 0)]
    eof := 19
    f := ⟨pack32 1 ++ pack32 8 ++ pack32 2 ++ pack32 1 ++ [97] ++ [7, 8], 19⟩ }

/-- The state `add` produces from a fresh one-slot container for name `"x"`
and payload `[1, 2, 3]`. -/
def qw : FTLPack :=
  { index := [8]
    index_free := []
    metadata := [some ⟨[120], 3, 17⟩]
    filenames := [([120], 0)]
    eof := 20
    f := ⟨pack32 1 ++ pack32 8 ++ pack32 3 ++ pack32 1 ++ [120] ++ [1, 2, 3], 20⟩ }

/-- The state a failing `add` (declared size 3, 1-byte source) leaves
behind on a fresh one-slot container. -/
def sq : FTLPack :=
  { index := [8]
    index_free := []
    metadata := [some ⟨[97], 3, 17⟩]
    filenames := [([97], 0)]
    eof := 20
    f := ⟨pack32 1 ++ pack32 8 ++ pack32 3 ++ pack32 1 ++ [97] ++ [5], 18⟩ }

/-- A corrupted two-entry container: entry `"a"` at offset 16 has full byte
range 16..25 (8-byte header + 1-byte name + size 0), overlapping entry
`"b"` at offset 22; payload-only ranges do not overlap. -/
def opack : FTLPack :=
  { index := [16, 22]
    index_free := []
    metadata := [some ⟨[97], 0, 25⟩, some ⟨[98], 0, 31⟩]
    filenames := [([97], 0), ([98], 1)]
    eof := 31
    f := ⟨pack32 2 ++ pack32 16 ++ pack32 22 ++ List.replicate 19 7, 0⟩ }

/-- A one-slot container whose single entry sits at offset 24, leaving a
16-byte gap after the table: `free_room = (24 - 8) / 4 = 4`. -/
def gpack : FTLPack :=
  { index := [24]
    index_free := []
    metadata := [some ⟨[97], 4, 33⟩]
    filenames := [([97], 0)]
    eof := 37
    f := ⟨pack32 1 ++ pack32 24 ++ List.replicate 16 0 ++ pack32 4 ++ pack32 1 ++ [97] ++ [1, 2, 3, 4], 0⟩ }

/-! ### Lemmas about the file handle and the copy loops -/

@[simp] theorem pack32_length (v : Nat) : (pack32 v).length = 4 := rfl

@[simp] theorem fseek_pos (h : FileH) (k : Nat) : (fseek h k).pos = k := rfl

@[simp] theorem fseek_data (h : FileH) (k : Nat) : (fseek h k).data = h.data := rfl

@[simp] theorem fwrite_pos (h : FileH) (buf : List Nat) :
    (fwrite h buf).pos = h.pos + buf.length := rfl

theorem fwrite_data_length (h : FileH) (buf : List Nat) :
    (fwrite h buf).data.length = max h.data.length (h.pos + buf.length) :=
  writeAt_length _ _ _

@[simp] theorem readAt_zero (c : List Nat) (pos : Nat) : readAt c pos 0 = [] := by
  simp [readAt]

theorem take_chunk (src : List Nat) (todo m : Nat) (hm : m ≤ todo) :
    src.take m ++ (src.drop (src.take m).length).take (todo - (src.take m).length) =
      src.take todo := by
  by_cases hsrc : m ≤ src.length
  · rw [List.length_take, Nat.min_eq_left hsrc]
    rw [show todo = m + (todo - m) by omega, List.take_add]
    congr 2
    omega
  · rw [List.take_of_length_le (by omega)]
    rw [List.drop_length]
    simp only [List.take_nil, List.append_nil]
    rw [List.take_of_length_le (by omega)]

/-- What a successful `pumpIn` run does to the file: the cursor advances by
`todo`, the file grows to at least cursor + `todo`, the copied region holds
the first `todo` source bytes, and bytes below the starting cursor are
untouched. -/
theorem pumpIn_true (todo : Nat) : ∀ (h : FileH) (src : List Nat) (h2 : FileH),
    pumpIn h src todo = (h2, true) →
    h2.pos = h.pos + todo ∧
    h.data.length ≤ h2.data.length ∧
    (0 < todo → h.pos + todo ≤ h2.data.length) ∧
    readAt h2.data h.pos todo = src.take todo ∧
    (∀ a k, a + k ≤ h.pos → a + k ≤ h.data.length → readAt h2.data a k = readAt h.data a k) := by
  induction todo using Nat.strong_induction_on with
  | _ todo IH =>
    intro h src h2 hp
    rw [pumpIn] at hp
    split at hp
    · rename_i h0
      subst h0
      obtain ⟨rfl, -⟩ := Prod.mk.injEq .. ▸ hp
      exact ⟨by omega, le_refl _, by omega, by simp, fun a k _ _ => rfl⟩
    · rename_i h0
      split at hp
      · exact absurd (congrArg Prod.snd hp) (by simp)
      · rename_i b bs hsrc
        have hlen : (b :: bs).length ≤ todo := by
          have := List.length_take_le (min todo 4096) src
          rw [hsrc] at this
          omega
        have hrec := IH (todo - (b :: bs).length) (by simp only [List.length_cons]; omega)
          (fwrite h (b :: bs)) (src.drop (b :: bs).length) h2 hp
        obtain ⟨hpos, hgrow, hfill, hread, hpres⟩ := hrec
        have hw : (fwrite h (b :: bs)).pos = h.pos + (b :: bs).length := rfl
        have hwl := fwrite_data_length h (b :: bs)
        rw [hw] at hpos hread hpres hfill
        rw [hwl] at hgrow hpres
        have hfull : 0 < todo → h.pos + todo ≤ h2.data.length := by
          intro ht
          rcases Nat.lt_or_ge (b :: bs).length todo with hc | hc
          · have := hfill (by omega)
            omega
          · omega
        refine ⟨by omega, by omega, hfull, ?_, ?_⟩
        · have hfirst : readAt h2.data h.pos (b :: bs).length = b :: bs := by
            rw [hpres h.pos (b :: bs).length (by omega) (by omega)]
            exact readAt_writeAt_self h.data h.pos (b :: bs)
          conv_lhs => rw [show todo = (b :: bs).length + (todo - (b :: bs).length) by omega]
          rw [readAt_add, hread, hfirst, ← hsrc]
          exact take_chunk src todo (min todo 4096) (by omega)
        · intro a k hak hcl
          rw [hpres a k (by omega) (by omega)]
          exact readAt_writeAt_of_le h.data h.pos (b :: bs) a k (by omega) hcl

/-- A failed `pumpIn` run means the source held fewer than `todo` bytes. -/
theorem pumpIn_false (todo : Nat) : ∀ (h : FileH) (src : List Nat) (h2 : FileH),
    pumpIn h src todo = (h2, false) → src.length < todo := by
  induction todo using Nat.strong_induction_on with
  | _ todo IH =>
    intro h src h2 hp
    rw [pumpIn] at hp
    split at hp
    · exact absurd (congrArg Prod.snd hp) (by simp)
    · rename_i h0
      split at hp
      · rename_i hsrc
        have : src.take (min todo 4096) = [] := hsrc
        rcases List.take_eq_nil_iff.mp this with h1 | h1
        · omega
        · rw [h1]
          simp only [List.length_nil]
          omega
      · rename_i b bs hsrc
        have hlen : (b :: bs).length ≤ todo := by
          have := List.length_take_le (min todo 4096) src
          rw [hsrc] at this
          omega
        have hsl : (b :: bs).length ≤ src.length := by
          have := List.length_take_le' (l := src) (n := min todo 4096)
          rw [hsrc] at this
          · omega
        have := IH (todo - (b :: bs).length) (by simp only [List.length_cons]; omega)
          (fwrite h (b :: bs)) (src.drop (b :: bs).length) h2 hp
        simp only [List.length_drop] at this
        omega

/-- `pumpIn` never disturbs bytes below the starting cursor, whether or not
it completes. -/
theorem pumpIn_below (todo : Nat) : ∀ (h : FileH) (src : List Nat) (a k : Nat),
    a + k ≤ h.pos → a + k ≤ h.data.length →
    readAt (pumpIn h src todo).1.data a k = readAt h.data a k := by
  induction todo using Nat.strong_induction_on with
  | _ todo IH =>
    intro h src a k hak hcl
    rw [pumpIn]
    split
    · rfl
    · rename_i h0
      split
      · rfl
      · rename_i b bs hsrc
        have hwl := fwrite_data_length h (b :: bs)
        rw [IH (todo - (b :: bs).length) (by simp only [List.length_cons]; omega)
          (fwrite h (b :: bs)) _ a k (by simp only [fwrite_pos]; omega) (by rw [hwl]; omega)]
        exact readAt_writeAt_of_le h.data h.pos (b :: bs) a k (by omega) hcl

/-- `pumpOut` on a region inside the file yields exactly that region. -/
theorem pumpOut_spec (todo : Nat) : ∀ (h : FileH) (acc : List Nat),
    h.pos + todo ≤ h.data.length →
    pumpOut h todo acc = some (acc ++ readAt h.data h.pos todo) := by
  induction todo using Nat.strong_induction_on with
  | _ todo IH =>
    intro h acc hin
    rw [pumpOut]
    split
    · rename_i h0
      subst h0
      simp
    · rename_i h0
      have hblen : (readAt h.data h.pos (min todo 4096)).length = min todo 4096 := by
        rw [readAt_length]
        omega
      simp only [fread]
      rw [dif_neg (by rw [hblen]; omega)]
      rw [IH (todo - (readAt h.data h.pos (min todo 4096)).length)
        (by rw [hblen]; omega)
        ⟨h.data, h.pos + (readAt h.data h.pos (min todo 4096)).length⟩
        (acc ++ readAt h.data h.pos (min todo 4096))
        (by show h.pos + (readAt h.data h.pos (min todo 4096)).length +
              (todo - (readAt h.data h.pos (min todo 4096)).length) ≤ h.data.length
            rw [hblen]
            omega)]
      have hsplit : readAt h.data h.pos todo =
          readAt h.data h.pos (min todo 4096) ++
            readAt h.data (h.pos + min todo 4096) (todo - min todo 4096) := by
        conv_lhs => rw [show todo = min todo 4096 + (todo - min todo 4096) by omega]
        rw [readAt_add]
      rw [hblen, hsplit, ← List.append_assoc]

/-! ### `add` / `extract_to` round trip -/

theorem addWrites_pos (h : FileH) (n off : Nat) (fn : List Nat) (size : Nat) :
    (addWrites h n off fn size).pos = off + 8 + fn.length := by
  simp only [addWrites, fwrite_pos, fseek_pos, List.length_append, pack32_length]

theorem addWrites_data_length_ge (h : FileH) (n off : Nat) (fn : List Nat) (size : Nat) :
    off + 8 + fn.length ≤ (addWrites h n off fn size).data.length := by
  simp only [addWrites]
  rw [fwrite_data_length]
  simp only [fwrite_pos, fseek_pos, List.length_append, pack32_length]
  omega

theorem lookupName_cons_self (fns : List (List Nat × Nat)) (fn : List Nat) (n : Nat) :
    lookupName ((fn, n) :: fns) fn = some n := by
  simp [lookupName]

/-- Claim C1.  Adding payload `B` under a fresh name with declared size
`len(B)` and then extracting that name yields exactly `B`. -/
theorem add_extract_roundtrip (p : FTLPack) (fn B : List Nat) (fuel : Nat) (q : FTLPack)
    (hadd : FTLPack.add p fn B B.length fuel = .ok q) :
    FTLPack.extract_to q fn = .ok B := by
  unfold FTLPack.add at hadd
  split at hadd
  · simp at hadd
  · split at hadd
    · simp at hadd
    · rename_i p1 heq1
      split at hadd
      · simp at hadd
      · rename_i pr n free1 heq2
        split at hadd
        · rename_i hb
          simp only [] at hadd
          rcases hpump : pumpIn (addWrites p1.f n p1.eof fn B.length) B B.length
            with ⟨h2, complete⟩
          rw [hpump] at hadd
          cases complete with
          | false => simp at hadd
          | true =>
            simp only [if_true] at hadd
            injection hadd with hq
            subst hq
            have hT := pumpIn_true B.length (addWrites p1.f n p1.eof fn B.length) B h2 hpump
            obtain ⟨hTpos, hTgrow, hTfill, hTread, -⟩ := hT
            have hXpos := addWrites_pos p1.f n p1.eof fn B.length
            have hXlen := addWrites_data_length_ge p1.f n p1.eof fn B.length
            have hroom : p1.eof + 8 + fn.length + B.length ≤ h2.data.length := by
              rcases Nat.eq_zero_or_pos B.length with hz | hz
              · omega
              · have := hTfill hz
                omega
            unfold FTLPack.extract_to
            rw [lookupName_cons_self]
            simp only []
            rw [List.getElem?_set_self hb.2]
            simp only []
            rw [pumpOut_spec B.length (fseek h2 (p1.eof + 8 + fn.length)) []
              (by simp only [fseek_pos, fseek_data]; omega)]
            simp only [fseek_data, fseek_pos, List.nil_append]
            rw [← hXpos, hTread, List.take_length]
        · simp at hadd

/-! ### `add` failure modes -/

/-- Claim C8.  `add` on a name that is already present raises
`ValueError("filename already in use")` before doing anything: the returned
state is exactly the input state. -/
theorem add_dupKey_no_mutation (p : FTLPack) (fn src : List Nat) (size fuel : Nat)
    (hdup : (lookupName p.filenames fn).isSome = true) :
    FTLPack.add p fn src size fuel = .dupKey p := by
  unfold FTLPack.add
  rw [if_pos hdup]

theorem addWrites_read_ptr (h : FileH) (n off : Nat) (fn : List Nat) (size : Nat)
    (hd : n * 4 + 4 + 4 ≤ off) :
    readAt (addWrites h n off fn size).data (n * 4 + 4) 4 = pack32 off := by
  unfold addWrites
  simp only [fwrite, fseek]
  rw [readAt_writeAt_of_le _ _ _ _ _ (by simp only [List.length_append, pack32_length]; omega)
    (by rw [writeAt_length]; simp only [List.length_append, pack32_length]; omega)]
  rw [readAt_writeAt_of_le _ _ _ _ _ (by omega)
    (by rw [writeAt_length]; simp only [pack32_length]; omega)]
  exact readAt_writeAt_self h.data (n * 4 + 4) (pack32 off)

theorem addWrites_read_hdr (h : FileH) (n off : Nat) (fn : List Nat) (size : Nat) :
    readAt (addWrites h n off fn size).data off 8 = pack32 size ++ pack32 fn.length := by
  unfold addWrites
  simp only [fwrite, fseek]
  rw [readAt_writeAt_of_le _ _ _ _ _ (by simp only [List.length_append, pack32_length]; omega)
    (by rw [writeAt_length]; simp only [List.length_append, pack32_length]; omega)]
  have := readAt_writeAt_self (writeAt h.data (n * 4 + 4) (pack32 off)) off
    (pack32 size ++ pack32 fn.length)
  simpa using this

theorem addWrites_read_name (h : FileH) (n off : Nat) (fn : List Nat) (size : Nat) :
    readAt (addWrites h n off fn size).data (off + 8) fn.length = fn := by
  unfold addWrites
  simp only [fwrite, fseek]
  have := readAt_writeAt_self
    (writeAt (writeAt h.data (n * 4 + 4) (pack32 off)) off (pack32 size ++ pack32 fn.length))
    (off + (pack32 size ++ pack32 fn.length).length) fn
  simpa using this

/-- Claim C10.  When `add` fails with `ShortRead`, the entry has already
been registered: the name resolves in the name map, the slot pointer, the
8-byte header and the name are on disk, and the EOF cursor was advanced by
the full `8 + namelen + size` — even though the source held fewer than
`size` bytes. -/
theorem add_shortRead_registered (p : FTLPack) (fn src : List Nat) (size fuel : Nat)
    (q : FTLPack)
    (hfree : p.index_free.isEmpty = false)
    (hinv : 4 + 4 * p.index.length ≤ p.eof)
    (hadd : FTLPack.add p fn src size fuel = .shortRead q) :
    ∃ n free1, popLast p.index_free = some (n, free1) ∧
      lookupName q.filenames fn = some n ∧
      q.eof = p.eof + size + 8 + fn.length ∧
      readAt q.f.data (n * 4 + 4) 4 = pack32 p.eof ∧
      readAt q.f.data p.eof 8 = pack32 size ++ pack32 fn.length ∧
      readAt q.f.data (p.eof + 8) fn.length = fn ∧
      src.length < size := by
  unfold FTLPack.add at hadd
  split at hadd
  · simp at hadd
  · rw [hfree] at hadd
    simp only [Bool.false_eq_true, if_false] at hadd
    split at hadd
    · rename_i heq2
      simp at hadd
    · rename_i pr n free1 heq2
      split at hadd
      · rename_i hb
        rcases hpump : pumpIn (addWrites p.f n p.eof fn size) src size with ⟨h2, complete⟩
        rw [hpump] at hadd
        cases complete with
        | true => simp at hadd
        | false =>
          simp only [Bool.false_eq_true, if_false] at hadd
          injection hadd with hq
          subst hq
          have hptr : n * 4 + 4 + 4 ≤ p.eof := by
            have := hb.1
            omega
          have hXpos := addWrites_pos p.f n p.eof fn size
          have hXlen := addWrites_data_length_ge p.f n p.eof fn size
          have hbelow : ∀ a k, a + k ≤ (addWrites p.f n p.eof fn size).pos →
              a + k ≤ (addWrites p.f n p.eof fn size).data.length →
              readAt h2.data a k = readAt (addWrites p.f n p.eof fn size).data a k := by
            intro a k h1 h2'
            have hz := pumpIn_below size (addWrites p.f n p.eof fn size) src a k h1 h2'
            rw [hpump] at hz
            exact hz
          refine ⟨n, free1, heq2, lookupName_cons_self _ _ _, rfl, ?_, ?_, ?_, ?_⟩
          · rw [hbelow (n * 4 + 4) 4 (by omega) (by omega)]
            exact addWrites_read_ptr p.f n p.eof fn size hptr
          · rw [hbelow p.eof 8 (by omega) (by omega)]
            exact addWrites_read_hdr p.f n p.eof fn size
          · rw [hbelow (p.eof + 8) fn.length (by omega) (by omega)]
            exact addWrites_read_name p.f n p.eof fn size
          · exact pumpIn_false size (addWrites p.f n p.eof fn size) src h2
              (by rw [hpump])
      · simp at hadd

/-! ### Lemmas about the repack passes -/

theorem layout_length (o : Nat) (es : List repack_entry) :
    ((layout o es).1).length = es.length := by
  induction es generalizing o with
  | nil => rfl
  | cons e r IH => simp [layout, IH]

theorem layout_snd (o : Nat) (es : List repack_entry) :
    (layout o es).2 = o + sumTot es := by
  induction es generalizing o with
  | nil => simp [layout, sumTot]
  | cons e r IH =>
    simp only [layout, IH, sumTot, List.map_cons, List.sum_cons, entryTotal]
    omega

theorem layout_map_new (o : Nat) (es : List repack_entry) :
    ((layout o es).1).map (fun e => e.new_offset) =
      offsetsFrom o (es.map entryTotal) := by
  induction es generalizing o with
  | nil => rfl
  | cons e r IH =>
    simp only [layout, List.map_cons, offsetsFrom, entryTotal]
    exact congrArg _ (IH _)

theorem layout_packedFrom (o : Nat) (es : List repack_entry) :
    packedFrom o (layout o es).1 := by
  induction es generalizing o with
  | nil => trivial
  | cons e r IH =>
    refine ⟨rfl, ?_⟩
    simpa using IH (o + (e.size + e.filename.length + 8))

theorem layout_sumTot (o : Nat) (es : List repack_entry) :
    sumTot (layout o es).1 = sumTot es := by
  induction es generalizing o with
  | nil => rfl
  | cons e r IH =>
    simp only [layout, sumTot, List.map_cons, List.sum_cons, entryTotal] at *
    rw [IH]

theorem packedFrom_ge (o : Nat) (es : List repack_entry) (h : packedFrom o es) :
    ∀ e ∈ es, o ≤ e.new_offset := by
  induction es generalizing o with
  | nil => intro e he; cases he
  | cons e r IH =>
    intro x hx
    rcases List.mem_cons.mp hx with hx | hx
    · rw [hx, h.1]
    · have := IH _ h.2 x hx
      omega

/-- Claim C9's core computation: under the full-byte-range non-overlap
invariant, the layout pass never moves an entry to a higher offset. -/
theorem layout_le (o : Nat) (es : List repack_entry)
    (hno : hasFullOverlap es = false)
    (hhead : ∀ e, es.head? = some e → o ≤ e.old_offset) :
    ∀ e ∈ (layout o es).1, e.new_offset ≤ e.old_offset := by
  induction es generalizing o with
  | nil => intro e he; cases he
  | cons e r IH =>
    intro x hx
    simp only [layout] at hx
    rcases List.mem_cons.mp hx with hx | hx
    · rw [hx]
      exact hhead e rfl
    · refine IH (o + (e.size + e.filename.length + 8)) ?_ ?_ x hx
      · cases r with
        | nil => rfl
        | cons b r' =>
          rw [hasFullOverlap, Bool.or_eq_false_iff] at hno
          exact hno.2
      · intro b hb
        cases r with
        | nil => cases hb
        | cons b' r' =>
          rw [List.head?_cons, Option.some.injEq] at hb
          subst hb
          rw [hasFullOverlap, Bool.or_eq_false_iff, decide_eq_false_iff_not, Nat.not_lt] at hno
          have := hhead e rfl
          omega

theorem collectLive_length (n : Nat) (idx : List Nat)
    (md : List (Option ftldat_entry)) (es : List repack_entry)
    (h : collectLive n idx md = some es) : es.length ≤ idx.length := by
  induction idx generalizing n es with
  | nil =>
    rw [collectLive] at h
    cases h
    simp
  | cons addr rest IH =>
    rw [collectLive] at h
    split at h
    · have := IH _ _ h
      simp only [List.length_cons]
      omega
    · split at h
      · rename_i e he
        split at h
        · rename_i es' hes'
          cases h
          have := IH _ _ hes'
          simp only [List.length_cons]
          omega
        · cases h
      · cases h

theorem sortEntries_length (es : List repack_entry) :
    (sortEntries es).length = es.length :=
  List.length_mergeSort es

theorem sortEntries_perm (es : List repack_entry) : List.Perm (sortEntries es) es :=
  List.mergeSort_perm es _

theorem sortEntries_sumTot (es : List repack_entry) :
    sumTot (sortEntries es) = sumTot es :=
  List.Perm.sum_eq ((sortEntries_perm es).map entryTotal)

theorem sortEntries_of_sorted (es : List repack_entry)
    (h : es.Pairwise (fun a b => a.old_offset ≤ b.old_offset)) :
    sortEntries es = es := by
  apply List.mergeSort_of_sorted
  exact h.imp (fun hab => by simpa using hab)

theorem sumTot_cons (e : repack_entry) (r : List repack_entry) :
    sumTot (e :: r) = entryTotal e + sumTot r := by
  simp [sumTot]

theorem relabel_length (n : Nat) (es : List repack_entry) :
    (relabel n es).length = es.length := by
  induction es generalizing n with
  | nil => rfl
  | cons e r IH => simp [relabel, IH]

theorem relabel2_length (n : Nat) (es : List repack_entry) :
    (relabel2 n es).length = es.length := by
  induction es generalizing n with
  | nil => rfl
  | cons e r IH => simp [relabel2, IH]

theorem relabel2_map_new (n : Nat) (es : List repack_entry) :
    (relabel2 n es).map (fun e => e.new_offset) = es.map (fun e => e.new_offset) := by
  induction es generalizing n with
  | nil => rfl
  | cons e r IH => simp [relabel2, IH]

theorem relabel2_map_md (n : Nat) (es : List repack_entry) :
    (relabel2 n es).map
        (fun e => some (⟨e.filename, e.size, e.new_offset + 8 + e.filename.length⟩ : ftldat_entry)) =
      es.map
        (fun e => some (⟨e.filename, e.size, e.new_offset + 8 + e.filename.length⟩ : ftldat_entry)) := by
  induction es generalizing n with
  | nil => rfl
  | cons e r IH => simp [relabel2, IH]

theorem buildNames_relabel2 (m n : Nat) (es : List repack_entry) :
    buildNames m (relabel2 n es) = buildNames m es := by
  induction es generalizing m n with
  | nil => rfl
  | cons e r IH => simp [buildNames, relabel2, IH]

theorem relabel2_new_eq_old (n : Nat) (es : List repack_entry) :
    ∀ e ∈ relabel2 n es, e.new_offset = e.old_offset := by
  induction es generalizing n with
  | nil => intro e he; cases he
  | cons e r IH =>
    intro x hx
    rcases List.mem_cons.mp hx with hx | hx
    · rw [hx]
    · exact IH (n + 1) x hx

theorem relabel2_getElem (n : Nat) (es : List repack_entry) (k : Nat) :
    (relabel2 n es)[k]? = (es[k]?).map
      (fun e => (⟨n + k, e.new_offset, e.filename, e.size, e.new_offset⟩ : repack_entry)) := by
  induction es generalizing n k with
  | nil => simp [relabel2]
  | cons e r IH =>
    cases k with
    | zero => simp [relabel2]
    | succ k =>
      simp only [relabel2, List.getElem?_cons_succ, IH (n + 1) k]
      rw [show n + 1 + k = n + (k + 1) by omega]

theorem relabel_old_ge (o m : Nat) (es : List repack_entry) (h : packedFrom o es) :
    ∀ b ∈ relabel m es, o ≤ b.old_offset := by
  induction es generalizing o m with
  | nil => intro b hb; cases hb
  | cons e r IH =>
    intro b hb
    rcases List.mem_cons.mp hb with hb | hb
    · rw [hb]
      exact Nat.le_of_eq h.1.symm
    · have := IH _ (m + 1) h.2 b hb
      omega

theorem relabel_pairwise (o n : Nat) (es : List repack_entry) (h : packedFrom o es) :
    (relabel n es).Pairwise (fun a b => a.old_offset ≤ b.old_offset) := by
  induction es generalizing o n with
  | nil => exact List.Pairwise.nil
  | cons e r IH =>
    refine List.Pairwise.cons ?_ (IH _ (n + 1) h.2)
    intro b hb
    have hge := relabel_old_ge _ (n + 1) r h.2 b hb
    have he1 := h.1
    simp only []
    omega

theorem relabel_no_overlap (o n : Nat) (es : List repack_entry) (h : packedFrom o es) :
    hasOverlap (relabel n es) = false := by
  induction es generalizing o n with
  | nil => rfl
  | cons e r IH =>
    cases r with
    | nil => rfl
    | cons b r' =>
      show hasOverlap (⟨n, e.new_offset, e.filename, e.size, 0⟩ ::
        ⟨n + 1, b.new_offset, b.filename, b.size, 0⟩ :: relabel (n + 2) r') = false
      rw [hasOverlap, Bool.or_eq_false_iff]
      constructor
      · rw [decide_eq_false_iff_not, Nat.not_lt]
        have he1 := h.1
        have hb1 := h.2.1
        simp only []
        omega
      · exact IH _ (n + 1) h.2

theorem layout_relabel (o n : Nat) (es : List repack_entry) (h : packedFrom o es) :
    layout o (relabel n es) = (relabel2 n es, o + sumTot es) := by
  induction es generalizing o n with
  | nil => simp [relabel, relabel2, layout, sumTot]
  | cons e r IH =>
    show layout o (⟨n, e.new_offset, e.filename, e.size, 0⟩ :: relabel (n + 1) r) = _
    rw [layout]
    simp only []
    rw [IH _ (n + 1) h.2]
    simp only [relabel2, sumTot_cons, entryTotal]
    refine Prod.ext ?_ (by simp only []; omega)
    simp only []
    rw [h.1]

theorem collectLive_map (es : List repack_entry) (md : List (Option ftldat_entry)) (n : Nat)
    (hmd : ∀ k, k < es.length → md[n + k]? = (es[k]?).map
      (fun e => some (⟨e.filename, e.size, e.new_offset + 8 + e.filename.length⟩ : ftldat_entry)))
    (hpos : ∀ e ∈ es, 0 < e.new_offset) :
    collectLive n (es.map (fun e => e.new_offset)) md = some (relabel n es) := by
  induction es generalizing n with
  | nil => rfl
  | cons e r IH =>
    rw [List.map_cons, collectLive]
    rw [if_neg (by have := hpos e (List.mem_cons_self e r); omega)]
    have h0 := hmd 0 (by simp)
    simp at h0
    rw [h0]
    rw [IH (n + 1) ?_ ?_]
    · rfl
    · intro k hk
      have := hmd (k + 1) (by simp only [List.length_cons]; omega)
      rw [show n + (k + 1) = n + 1 + k by omega] at this
      rw [this, List.getElem?_cons_succ]
    · intro x hx
      exact hpos x (List.mem_cons_of_mem e hx)

theorem writeSlots_skip_all (es : List repack_entry) : ∀ (h : FileH) (idx : List Nat)
    (n bm : Nat),
    (∀ k, k < es.length → (es[k]?).map (fun e => e.new_offset) = some (idx.getD (n + k) 0)) →
    writeSlots h idx es n true bm = (h, bm) := by
  induction es with
  | nil => intro h idx n bm _; rfl
  | cons e r IH =>
    intro h idx n bm heq
    have h0 := heq 0 (by simp)
    simp at h0
    rw [writeSlots, List.getD_eq_getElem?_getD, if_pos h0]
    refine IH h idx (n + 1) bm ?_
    intro k hk
    have := heq (k + 1) (by simp only [List.length_cons]; omega)
    rw [show n + (k + 1) = n + 1 + k by omega] at this
    rw [← this, List.getElem?_cons_succ]

theorem moveAll_skip_all (es : List repack_entry) (h : FileH) (bm : Nat)
    (heq : ∀ e ∈ es, e.new_offset = e.old_offset) :
    moveAll h es bm = some (h, bm) := by
  induction es with
  | nil => rfl
  | cons e r IH =>
    rw [moveAll, if_pos (heq e (List.mem_cons_self e r))]
    exact IH (fun x hx => heq x (List.mem_cons_of_mem e hx))

/-- Running `repack` on the canonical state it itself builds — packed
entries, exact-size table, file truncated to the packed size — rewrites
nothing, moves nothing, and reports `new_size = old_size`. -/
theorem repack_packed (es : List repack_entry) (T : Nat) (h : FileH)
    (hpk : packedFrom (4 + es.length * 4) es)
    (hT : T = 4 + es.length * 4 + sumTot es)
    (hlen : h.data.length = T) :
    FTLPack.repack (packedPack es T h) = .ok (packedPack es T h) 0 T T := by
  have hpos : ∀ e ∈ es, 0 < e.new_offset := by
    intro e he
    have := packedFrom_ge _ es hpk e he
    omega
  have hcol : collectLive 0 (packedPack es T h).index (packedPack es T h).metadata =
      some (relabel 0 es) := by
    show collectLive 0 (es.map (fun e => e.new_offset))
      (es.map (fun e => some (⟨e.filename, e.size, e.new_offset + 8 + e.filename.length⟩ :
        ftldat_entry))) = some (relabel 0 es)
    refine collectLive_map es _ 0 ?_ hpos
    intro k hk
    rw [Nat.zero_add, List.getElem?_map]
  have hsorted : sortEntries (relabel 0 es) = relabel 0 es :=
    sortEntries_of_sorted _ (relabel_pairwise _ 0 es hpk)
  have hno : hasOverlap (relabel 0 es) = false := relabel_no_overlap _ 0 es hpk
  unfold FTLPack.repack
  rw [hcol]
  simp only [hsorted, hno, Bool.false_eq_true, if_false, relabel_length]
  rw [layout_relabel _ 0 es hpk]
  simp only []
  rw [← hT]
  unfold repackGo
  rw [if_pos (by
    show (relabel2 0 es).length = (packedPack es T h).index.length
    rw [relabel2_length]
    show es.length = (es.map (fun e => e.new_offset)).length
    rw [List.length_map])]
  simp only []
  rw [writeSlots_skip_all (relabel2 0 es) (packedPack es T h).f
    (packedPack es T h).index 0 0 ?_]
  · rw [moveAll_skip_all _ _ _ (relabel2_new_eq_old 0 es)]
    show RepackResult.ok (packedPack (relabel2 0 es) T (ftruncate (packedPack es T h).f T)) 0
      (packedPack es T h).eof T = _
    have hfile : ftruncate (packedPack es T h).f T = (packedPack es T h).f :=
      ftruncate_eq_self _ _ hlen
    rw [hfile]
    have heq : packedPack (relabel2 0 es) T (packedPack es T h).f = packedPack es T h := by
      unfold packedPack
      simp only [relabel2_map_new, relabel2_map_md, buildNames_relabel2]
    rw [heq]
    rfl
  · intro k hk
    rw [relabel2_length] at hk
    have hidx : (packedPack es T h).index.getD (0 + k) 0 = (es[k]).new_offset := by
      show (es.map (fun e => e.new_offset)).getD (0 + k) 0 = _
      rw [List.getD_eq_getElem?_getD, Nat.zero_add, List.getElem?_map,
        List.getElem?_eq_getElem hk]
      rfl
    rw [hidx, relabel2_getElem, List.getElem?_eq_getElem hk]
    rfl

/-- Inversion of a successful `repack`: the shape of the returned state and
report. -/
theorem repack_ok_inv (p q : FTLPack) (bm os ns : Nat)
    (h : FTLPack.repack p = .ok q bm os ns) :
    ∃ es0 h2, collectLive 0 p.index p.metadata = some es0 ∧
      hasOverlap (sortEntries es0) = false ∧
      os = p.eof ∧
      ns = 4 + (sortEntries es0).length * 4 + sumTot (sortEntries es0) ∧
      q = packedPack (layout (4 + (sortEntries es0).length * 4) (sortEntries es0)).1 ns
        (ftruncate h2 ns) := by
  unfold FTLPack.repack at h
  split at h
  · simp at h
  · rename_i es0 hc
    simp only [] at h
    split at h
    · simp at h
    · rename_i hov
      unfold repackGo at h
      simp only [] at h
      rcases hws : writeSlots
          (if (layout (4 + (sortEntries es0).length * 4) (sortEntries es0)).1.length =
              p.index.length
            then (p.f, 0, true)
            else (fwrite (fseek p.f 0)
              (pack32 (layout (4 + (sortEntries es0).length * 4) (sortEntries es0)).1.length),
              4, false)).1
          p.index (layout (4 + (sortEntries es0).length * 4) (sortEntries es0)).1 0
          (if (layout (4 + (sortEntries es0).length * 4) (sortEntries es0)).1.length =
              p.index.length
            then ((p.f, 0, true) : FileH × Nat × Bool)
            else (fwrite (fseek p.f 0)
              (pack32 (layout (4 + (sortEntries es0).length * 4) (sortEntries es0)).1.length),
              4, false)).2.2
          (if (layout (4 + (sortEntries es0).length * 4) (sortEntries es0)).1.length =
              p.index.length
            then ((p.f, 0, true) : FileH × Nat × Bool)
            else (fwrite (fseek p.f 0)
              (pack32 (layout (4 + (sortEntries es0).length * 4) (sortEntries es0)).1.length),
              4, false)).2.1
        with ⟨h1, bm1⟩
      rw [hws] at h
      split at h
      · rename_i h2m bm2 hmv
        injection h with h1' h2' h3' h4'
        refine ⟨es0, h2m, hc, Bool.not_eq_true _ ▸ hov, h3'.symm, ?_, ?_⟩
        · rw [← h4', layout_snd]
        · rw [← h1', ← h4']
      · simp at h

/-- Claim C2.  On any state where `repack` completes, the reported
`new_size` is `4 + 4*live_count + Σ (8 + len(name) + size)` over the live
entries, the file is truncated to exactly that length, and the rebuilt slot
table holds consecutive packed offsets starting at `4 + 4*live_count` with
no inter-entry gaps. -/
theorem repack_minimal (p q : FTLPack) (bm os ns : Nat)
    (h : FTLPack.repack p = .ok q bm os ns) :
    ∃ es0, collectLive 0 p.index p.metadata = some es0 ∧
      ns = 4 + 4 * es0.length + sumTot es0 ∧
      q.f.data.length = ns ∧
      q.index = offsetsFrom (4 + 4 * es0.length) ((sortEntries es0).map entryTotal) := by
  obtain ⟨es0, h2, hc, -, -, hns, hq⟩ := repack_ok_inv p q bm os ns h
  refine ⟨es0, hc, ?_, ?_, ?_⟩
  · rw [hns, sortEntries_length, sortEntries_sumTot, Nat.mul_comm]
  · rw [hq]
    exact ftruncate_length h2 ns
  · rw [hq]
    show (layout (4 + (sortEntries es0).length * 4) (sortEntries es0)).1.map
      (fun e => e.new_offset) = _
    rw [layout_map_new, sortEntries_length, Nat.mul_comm]

/-- Claim C3.  A second `repack` immediately after a successful one moves
zero bytes, reports `new_size = old_size`, and leaves the whole state — the
file included — unchanged. -/
theorem repack_idempotent (p q : FTLPack) (bm os ns : Nat)
    (h : FTLPack.repack p = .ok q bm os ns) :
    FTLPack.repack q = .ok q 0 ns ns := by
  obtain ⟨es0, h2, hc, hov, -, hns, hq⟩ := repack_ok_inv p q bm os ns h
  rw [hq]
  refine repack_packed _ ns (ftruncate h2 ns) ?_ ?_ (ftruncate_length h2 ns)
  · rw [layout_length]
    exact layout_packedFrom _ _
  · rw [layout_length, layout_sumTot]
    exact hns

/-- `repackGo` — everything after the overlap check — never raises
`OverlappingEntries`. -/
theorem repackGo_ne_overlap (p : FTLPack) (es : List repack_entry) (nt : Nat)
    (q : FTLPack) : repackGo p es nt ≠ .overlap q := by
  unfold repackGo
  intro hcon
  simp only [] at hcon
  rcases hws : writeSlots
      (if es.length = p.index.length then ((p.f, 0, true) : FileH × Nat × Bool)
        else (fwrite (fseek p.f 0) (pack32 es.length), 4, false)).1
      p.index es 0
      (if es.length = p.index.length then ((p.f, 0, true) : FileH × Nat × Bool)
        else (fwrite (fseek p.f 0) (pack32 es.length), 4, false)).2.2
      (if es.length = p.index.length then ((p.f, 0, true) : FileH × Nat × Bool)
        else (fwrite (fseek p.f 0) (pack32 es.length), 4, false)).2.1
    with ⟨h1, bm1⟩
  rw [hws] at hcon
  split at hcon
  · simp at hcon
  · simp at hcon

/-- Claim C4, amended.  Given that collecting the live entries succeeds,
`repack` raises `OverlappingEntries` — returning with the state untouched —
exactly when, among the live entries sorted by ascending offset, some
adjacent pair satisfies `offset_i + size_i > offset_{i+1}` (payload size
only: the 8-byte header and the name bytes are not counted). -/
theorem repack_overlap_iff (p : FTLPack) (es0 : List repack_entry)
    (hc : collectLive 0 p.index p.metadata = some es0) :
    FTLPack.repack p = .overlap p ↔ hasOverlap (sortEntries es0) = true := by
  unfold FTLPack.repack
  rw [hc]
  simp only []
  cases hov : hasOverlap (sortEntries es0) with
  | true => simp
  | false =>
    simp only [Bool.false_eq_true, if_false]
    constructor
    · intro hcon
      exact absurd hcon (repackGo_ne_overlap _ _ _ _)
    · intro hcon
      cases hcon

/-- Claim C9.  Under the documented invariants — live entries' full byte
ranges do not overlap, and every entry sits at or after the end of the slot
table — the layout pass of `repack` assigns every entry a new offset that
is at most its old offset, so the forward chunked copy of each relocated
entry is safe. -/
theorem repack_new_le_old (p : FTLPack) (es0 : List repack_entry)
    (hc : collectLive 0 p.index p.metadata = some es0)
    (hfull : hasFullOverlap (sortEntries es0) = false)
    (hmin : ∀ e ∈ sortEntries es0, 4 + 4 * p.index.length ≤ e.old_offset) :
    ∀ e ∈ (layout (4 + (sortEntries es0).length * 4) (sortEntries es0)).1,
      e.new_offset ≤ e.old_offset := by
  apply layout_le _ _ hfull
  intro e he
  have hlen : (sortEntries es0).length ≤ p.index.length := by
    rw [sortEntries_length]
    exact collectLive_length 0 _ _ _ hc
  have hmem : e ∈ sortEntries es0 := List.mem_of_mem_head? (by rw [he]; rfl)
  have := hmin e hmem
  omega

/-! ### Lemmas about `_grow_index` and `_read_index` -/

theorem flatten_replicate_pack32 (fr : Nat) :
    (List.replicate fr (pack32 0)).flatten = List.replicate (4 * fr) 0 := by
  induction fr with
  | zero => rfl
  | succ fr IH =>
    rw [List.replicate_succ, List.flatten_cons, IH]
    rw [show 4 * (fr + 1) = 4 + 4 * fr by omega, List.replicate_add]
    rfl

theorem extendIndex_f (q : FTLPack) (fr : Nat) :
    (extendIndex q fr).f = fwrite (fseek (fwrite (fseek q.f 0)
      (pack32 (q.index ++ List.replicate fr 0).length)) (q.index.length * 4 + 4))
      ((List.replicate fr (pack32 0)).flatten) := rfl

theorem growLoop_ge (fuel : Nat) : ∀ (p q : FTLPack) (amount fr : Nat),
    growLoop p amount fuel = some (q, fr) → amount ≤ fr := by
  induction fuel with
  | zero =>
    intro p q a fr h
    simp [growLoop] at h
  | succ fuel IH =>
    intro p q a fr h
    rw [growLoop] at h
    split at h
    · injection h with h2
      injection h2 with h3 h4
      omega
    · simp only [] at h
      split at h
      · rename_i hcond
        injection h with h2
        injection h2 with h3 h4
        rw [← h4]
        omega
      · split at h
        · exact IH _ _ _ _ h
        · cases h

/-- Claim C6, amended.  Once the relocation loop of `_grow_index` breaks
with `free_room` slots of room, the table is extended by exactly
`free_room ≥ amount` slots (not by `amount`): `free_room` zero slot words
are written after the old table, `free_room` new free indices are pushed in
descending order, and `index_size` in both the header and memory becomes
`old + free_room`. -/
theorem grow_index_extends (p q : FTLPack) (amount fuel fr : Nat)
    (hloop : growLoop p amount fuel = some (q, fr)) :
    FTLPack.grow_index p amount fuel = some (extendIndex q fr) ∧
    amount ≤ fr ∧
    (extendIndex q fr).index = q.index ++ List.replicate fr 0 ∧
    (extendIndex q fr).index.length = q.index.length + fr ∧
    (extendIndex q fr).metadata = q.metadata ++ List.replicate fr none ∧
    (extendIndex q fr).index_free =
      q.index_free ++ (List.range fr).map (fun i => q.index.length + fr - 1 - i) ∧
    (extendIndex q fr).eof = q.eof ∧
    readAt (extendIndex q fr).f.data 0 4 = pack32 (q.index.length + fr) ∧
    readAt (extendIndex q fr).f.data (4 + 4 * q.index.length) (4 * fr) =
      List.replicate (4 * fr) 0 := by
  have hlen1 : (q.index ++ List.replicate fr 0).length = q.index.length + fr := by simp
  refine ⟨?_, growLoop_ge fuel p q amount fr hloop, rfl, by simp [extendIndex], rfl, rfl,
    rfl, ?_, ?_⟩
  · unfold FTLPack.grow_index
    rw [hloop]
  · rw [extendIndex_f]
    simp only [fwrite, fseek]
    rw [readAt_writeAt_of_le _ _ _ _ _ (by omega)
      (by rw [writeAt_length]; simp only [pack32_length]; omega)]
    have := readAt_writeAt_self q.f.data 0 (pack32 (q.index ++ List.replicate fr 0).length)
    rw [pack32_length] at this
    rw [this, hlen1]
  · rw [extendIndex_f]
    simp only [fwrite, fseek]
    rw [show 4 + 4 * q.index.length = q.index.length * 4 + 4 by omega]
    rw [flatten_replicate_pack32]
    have := readAt_writeAt_self
      (writeAt q.f.data 0 (pack32 (q.index ++ List.replicate fr 0).length))
      (q.index.length * 4 + 4) (List.replicate (4 * fr) 0)
    rw [List.length_replicate] at this
    exact this

theorem freeOf_ge (l : List Nat) : ∀ (n : Nat), ∀ m ∈ freeOf n l, n ≤ m := by
  induction l with
  | nil => intro n m hm; cases hm
  | cons a r IH =>
    intro n m hm
    rw [freeOf] at hm
    split at hm
    · rcases List.mem_cons.mp hm with hm | hm
      · omega
      · have := IH (n + 1) m hm
        omega
    · have := IH (n + 1) m hm
      omega

theorem freeOf_pairwise (l : List Nat) : ∀ (n : Nat),
    (freeOf n l).Pairwise (fun a b => a < b) := by
  induction l with
  | nil => intro n; exact List.Pairwise.nil
  | cons a r IH =>
    intro n
    rw [freeOf]
    split
    · refine List.Pairwise.cons ?_ (IH (n + 1))
      intro m hm
      have := freeOf_ge r (n + 1) m hm
      omega
    · exact IH (n + 1)

theorem scanEntries_free (rem : List Nat) : ∀ (n : Nat) (h : FileH) (free : List Nat)
    (md : List (Option ftldat_entry)) (fns : List (List Nat × Nat))
    (fr : List Nat) (md2 : List (Option ftldat_entry)) (fns2 : List (List Nat × Nat))
    (h2 : FileH),
    scanEntries n rem h free md fns = some (fr, md2, fns2, h2) →
    fr = free ++ freeOf n rem := by
  induction rem with
  | nil =>
    intro n h free md fns fr md2 fns2 h2 hscan
    rw [scanEntries] at hscan
    injection hscan with hs
    injection hs with hs1 hs2
    rw [← hs1, freeOf, List.append_nil]
  | cons a rest IH =>
    intro n h free md fns fr md2 fns2 h2 hscan
    rw [scanEntries] at hscan
    split at hscan
    · rename_i ha
      rw [IH (n + 1) _ _ _ _ _ _ _ _ hscan, freeOf, if_pos ha, List.append_assoc]
      rfl
    · rename_i ha
      simp only [] at hscan
      split at hscan
      · split at hscan
        · rw [IH (n + 1) _ _ _ _ _ _ _ _ hscan, freeOf, if_neg ha]
        · cases hscan
      · cases hscan

/-- Claim C7, amended.  `_read_index` pushes the indices of free slots onto
the free-slot stack in ascending slot-index order (the loop order), so
subsequent `add` calls — which pop from the top of the stack — claim free
slots in descending slot-index order. -/
theorem read_index_free_ascending (h0 : FileH) (p : FTLPack)
    (h : FTLPack.read_index h0 = some p) :
    p.index_free = freeOf 0 p.index ∧ p.index_free.Pairwise (fun a b => a < b) := by
  unfold FTLPack.read_index at h
  simp only [] at h
  split at h
  · split at h
    · rename_i idx h2 hw
      split at h
      · rename_i free md fns h3 hscan
        injection h with hp
        subst hp
        have hfree := scanEntries_free idx 0 h2 [] (List.replicate (unpack32
          (fread (fseek h0 0) 4).1) none) [] free md fns h3 hscan
        simp only [List.nil_append] at hfree
        exact ⟨hfree, hfree ▸ freeOf_pairwise idx 0⟩
      · cases h
    · cases h
  · cases h

/-! ### Concrete evaluations: counterexamples and witnesses -/

unseal pumpIn copyChunks pumpOut List.merge List.mergeSort

/-- Claim C5 (code bug).  After `_grow_index(1)` extends the slot table of a
container with no occupied slots (a freshly created zero-slot container, as
`pack` builds for an empty folder), the EOF cursor still reads 4 while the
file is 8 bytes long: `_grow_index` never updates `self.eof`, contradicting
the code's own documentation of `eof` as the size of the file. -/
theorem grow_eof_desync :
    (FTLPack.grow_index (FTLPack.create_index 0) 1 1).map
        (fun q => (q.eof, q.f.data.length)) = some (4, 8) ∧ (4 : Nat) ≠ 8 := by
  decide

/-- Claim C6 counterexample.  With one live entry at offset 24 and a
one-slot table (table end 8), `_grow_index(1)` finds `free_room = 4` and
extends the table by 4 slots, not by `amount = 1`: the table length becomes
5, not 2, and four free indices `[4, 3, 2, 1]` are pushed, not one. -/
theorem grow_not_exact_amount :
    (FTLPack.grow_index gpack 1 1).map (fun q => (q.index.length, q.index_free)) =
      some (5, [4, 3, 2, 1]) ∧
    gpack.index.length + 1 = 2 ∧ (5 : Nat) ≠ 2 := by
  decide

/-- Witness for claim C6's amended statement at a concrete input. -/
theorem grow_index_extends_witness :
    growLoop (FTLPack.create_index 2) 1 1 = some (FTLPack.create_index 2, 1) ∧
    (FTLPack.grow_index (FTLPack.create_index 2) 1 1 =
        some (extendIndex (FTLPack.create_index 2) 1) ∧
      1 ≤ 1 ∧
      (extendIndex (FTLPack.create_index 2) 1).index =
        (FTLPack.create_index 2).index ++ List.replicate 1 0 ∧
      (extendIndex (FTLPack.create_index 2) 1).index.length =
        (FTLPack.create_index 2).index.length + 1 ∧
      (extendIndex (FTLPack.create_index 2) 1).metadata =
        (FTLPack.create_index 2).metadata ++ List.replicate 1 none ∧
      (extendIndex (FTLPack.create_index 2) 1).index_free =
        (FTLPack.create_index 2).index_free ++
          (List.range 1).map (fun i => (FTLPack.create_index 2).index.length + 1 - 1 - i) ∧
      (extendIndex (FTLPack.create_index 2) 1).eof = (FTLPack.create_index 2).eof ∧
      readAt (extendIndex (FTLPack.create_index 2) 1).f.data 0 4 =
        pack32 ((FTLPack.create_index 2).index.length + 1) ∧
      readAt (extendIndex (FTLPack.create_index 2) 1).f.data
          (4 + 4 * (FTLPack.create_index 2).index.length) (4 * 1) =
        List.replicate (4 * 1) 0) := by
  have h : growLoop (FTLPack.create_index 2) 1 1 = some (FTLPack.create_index 2, 1) := by
    decide
  exact ⟨h, grow_index_extends (FTLPack.create_index 2) (FTLPack.create_index 2) 1 1 1 h⟩

/-- Claim C7 counterexample.  Loading a file whose two slots are both free
builds the free-slot stack `[0, 1]` — pushed in ascending, not descending,
slot-index order — and the next `add`, popping the top of the stack, claims
slot 1, not slot 0. -/
theorem read_index_free_not_descending :
    (FTLPack.read_index ⟨pack32 2 ++ pack32 0 ++ pack32 0, 0⟩).map
        (fun p => p.index_free) = some [0, 1] ∧
    ([0, 1] : List Nat) ≠ [1, 0] ∧
    (FTLPack.read_index ⟨pack32 2 ++ pack32 0 ++ pack32 0, 0⟩).bind
        (fun p => match FTLPack.add p [97] [5] 1 1 with
          | AddResult.ok q => lookupName q.filenames [97]
          | _ => none) = some 1 := by
  decide

/-- Witness for claim C7's amended statement at a concrete input. -/
theorem read_index_free_ascending_witness :
    ∃ p, FTLPack.read_index ⟨pack32 2 ++ pack32 0 ++ pack32 0, 0⟩ = some p ∧
      p.index_free = freeOf 0 p.index ∧
      p.index_free.Pairwise (fun a b => a < b) := by
  rcases hr : FTLPack.read_index ⟨pack32 2 ++ pack32 0 ++ pack32 0, 0⟩ with _ | p
  · exact absurd hr (by decide)
  · exact ⟨p, rfl, read_index_free_ascending _ p hr⟩

/-- Witness for claim C1 at a concrete input. -/
theorem add_extract_roundtrip_witness :
    ∃ q, FTLPack.add (FTLPack.create_index 1) [120] [1, 2, 3] 3 1 = .ok q ∧
      FTLPack.extract_to q [120] = .ok [1, 2, 3] := by
  have h : FTLPack.add (FTLPack.create_index 1) [120] [1, 2, 3] 3 1 = .ok qw := by decide
  exact ⟨qw, h, add_extract_roundtrip (FTLPack.create_index 1) [120] [1, 2, 3] 1 qw h⟩

/-- Witness for claim C2 at a concrete input. -/
theorem repack_minimal_witness :
    ∃ q, FTLPack.repack wpack = .ok q 15 27 19 ∧
      ∃ es0, collectLive 0 wpack.index wpack.metadata = some es0 ∧
        19 = 4 + 4 * es0.length + sumTot es0 ∧
        q.f.data.length = 19 ∧
        q.index = offsetsFrom (4 + 4 * es0.length) ((sortEntries es0).map entryTotal) := by
  have h : FTLPack.repack wpack = .ok wq 15 27 19 := by decide
  exact ⟨wq, h, repack_minimal wpack wq 15 27 19 h⟩

/-- Witness for claim C3 at a concrete input. -/
theorem repack_idempotent_witness :
    FTLPack.repack wpack = .ok wq 15 27 19 ∧ FTLPack.repack wq = .ok wq 0 19 19 := by
  have h : FTLPack.repack wpack = .ok wq 15 27 19 := by decide
  exact ⟨h, repack_idempotent wpack wq 15 27 19 h⟩

/-- Claim C4 counterexample.  In `opack`, entry `"a"`'s full byte range
(16 through 16+8+1+0 = 25) extends past entry `"b"`'s offset 22, yet
`repack` does not fail with `OverlappingEntries`: the check compares only
`old_offset + size`, which is 16 ≤ 22. -/
theorem repack_overlap_check_misses_full_ranges :
    (collectLive 0 opack.index opack.metadata).map
        (fun es0 => hasFullOverlap (sortEntries es0)) = some true ∧
    FTLPack.repack opack ≠ .overlap opack := by
  decide

/-- Witness for claim C4's amended statement at a concrete input. -/
theorem repack_overlap_iff_witness :
    ∃ es0, collectLive 0 wpack.index wpack.metadata = some es0 ∧
      (FTLPack.repack wpack = .overlap wpack ↔ hasOverlap (sortEntries es0) = true) := by
  have hc : collectLive 0 wpack.index wpack.metadata = some [⟨0, 16, [97], 2, 0⟩] := by
    decide
  exact ⟨_, hc, repack_overlap_iff wpack _ hc⟩

/-- Witness for claim C8 at a concrete input. -/
theorem add_dupKey_no_mutation_witness :
    (lookupName wpack.filenames [97]).isSome = true ∧
      FTLPack.add wpack [97] [] 0 1 = .dupKey wpack :=
  ⟨by decide, add_dupKey_no_mutation wpack [97] [] 0 1 (by decide)⟩

/-- Witness for claim C9 at a concrete input. -/
theorem repack_new_le_old_witness :
    ∃ es0, collectLive 0 wpack.index wpack.metadata = some es0 ∧
      hasFullOverlap (sortEntries es0) = false ∧
      (∀ e ∈ sortEntries es0, 4 + 4 * wpack.index.length ≤ e.old_offset) ∧
      ∀ e ∈ (layout (4 + (sortEntries es0).length * 4) (sortEntries es0)).1,
        e.new_offset ≤ e.old_offset := by
  have hc : collectLive 0 wpack.index wpack.metadata = some [⟨0, 16, [97], 2, 0⟩] := by
    decide
  exact ⟨_, hc, by decide, by decide,
    repack_new_le_old wpack _ hc (by decide) (by decide)⟩

/-- Witness for claim C10 at a concrete input. -/
theorem add_shortRead_registered_witness :
    ∃ q, FTLPack.add (FTLPack.create_index 1) [97] [5] 3 1 = .shortRead q ∧
      ∃ n free1, popLast (FTLPack.create_index 1).index_free = some (n, free1) ∧
        lookupName q.filenames [97] = some n ∧
        q.eof = (FTLPack.create_index 1).eof + 3 + 8 + ([97] : List Nat).length ∧
        readAt q.f.data (n * 4 + 4) 4 = pack32 (FTLPack.create_index 1).eof ∧
        readAt q.f.data (FTLPack.create_index 1).eof 8 =
          pack32 3 ++ pack32 ([97] : List Nat).length ∧
        readAt q.f.data ((FTLPack.create_index 1).eof + 8) ([97] : List Nat).length = [97] ∧
        ([5] : List Nat).length < 3 := by
  have h : FTLPack.add (FTLPack.create_index 1) [97] [5] 3 1 = .shortRead sq := by decide
  exact ⟨sq, h, add_shortRead_registered (FTLPack.create_index 1) [97] [5] 3 1 sq
    (by decide) (by decide) h⟩

end FTLDat
